import Mathlib

/-!
Shallow embedding of the `compact_hash` library (files `SplitMix64.h` and
`compact_hash.h`) and verification of its specification.

Machine 64-bit words are modelled as `Nat` with explicit reduction modulo
`2 ^ 64` wherever the C++ arithmetic wraps.  Byte buffers are `List Nat`
(one entry per byte).  The `memcpy` of 8 raw bytes into a `uint64_t` is
modelled little-endian, the byte order of the x86-64 and arm64 targets the
header supports.
-/

namespace CompactHash

/-- `2 ^ 64`, the modulus of all wrapping 64-bit arithmetic. -/
abbrev M : Nat := 2 ^ 64

/-! ## SplitMix64 (from `SplitMix64.h`) -/

/-- `SplitMix64::INCREMENT = 0x9e3779b97f4a7c15` (line 20). -/
def INCREMENT : Nat := 0x9e3779b97f4a7c15

/-- The output-mixing part of `SplitMix64::operator()` (lines 36-38):
two multiply–xorshift rounds applied to the advanced state `z`. -/
def smMix (z : Nat) : Nat :=
  let z1 := (z ^^^ (z >>> 30)) * 0xbf58476d1ce4e5b9 % M
  let z2 := (z1 ^^^ (z1 >>> 27)) * 0x94d049bb133111eb % M
  z2 ^^^ (z2 >>> 31)

/-- The state-advancing step of `SplitMix64::operator()` (line 35):
`state += INCREMENT` with wrapping 64-bit addition. -/
def smNextState (s : Nat) : Nat := (s + INCREMENT) % M

/-- `SplitMix64::operator()` (lines 34-39): advance the state and return
the mixed advanced state together with the new state. -/
def smNext (s : Nat) : Nat × Nat :=
  let s' := smNextState s
  (smMix s', s')

/-- `SplitMix64::discard(n)` (lines 41-44): `state += INCREMENT * n`
with wrapping 64-bit arithmetic. -/
def smDiscard (s n : Nat) : Nat := (s + INCREMENT * n) % M

/-- The initial state built by `SplitMix64(NonDeterministic)` (line 31) from
two draws `r1`, `r2` of `std::random_device`:
`(static_cast<uint64_t>(r1) >> 32) | static_cast<uint64_t>(r2)`. -/
def ndSeed (r1 r2 : Nat) : Nat := (r1 >>> 32) ||| r2

/-! ## The hash engine (from `compact_hash.h`) -/

/-- `rotl(x, r)` (line 68) for `x < 2 ^ 64` and `0 < r < 64`:
`(x << r) | (x >> (64 - r))` in 64-bit arithmetic. -/
def rotl (x r : Nat) : Nat := ((x <<< r) % M) ||| (x >>> (64 - r))

/-- `CompactHash::compress(x, y)` (lines 137-142): wrapping
`(x + y) * 0x2d358dccaa6c78a5`, then the exact 128-bit product of that value
with itself XORed with `0x8bb84b93962eacc9`, folded as
`t ^ 0x8bb84b93962eacc9 ^ lo ^ hi`. -/
def compress (x y : Nat) : Nat :=
  let t := (x + y) * 0x2d358dccaa6c78a5 % M
  let p := t * (t ^^^ 0x8bb84b93962eacc9)
  t ^^^ 0x8bb84b93962eacc9 ^^^ (p % M) ^^^ (p / M)

/-- The state of a `CompactHash` object: the two lanes `state[0]`, `state[1]`
and the running `total_len` counter (lines 90-91). -/
structure HState where
  s0 : Nat
  s1 : Nat
  len : Nat
  deriving DecidableEq, Repr

/-- The constructor `CompactHash(seed)` (lines 94-98): seed a deterministic
`SplitMix64` with `seed`, draw the two lanes from it, `total_len = 0`. -/
def mkCompactHash (seed : Nat) : HState :=
  let r0 := smNext seed
  let r1 := smNext r0.2
  ⟨r0.1, r1.1, 0⟩

/-- Little-endian value of a byte list: the first byte is least significant.
Models `memcpy` of the bytes into a zero-initialised `uint64_t` on a
little-endian host (used with lists of at most 8 bytes). -/
def le64 (bs : List Nat) : Nat := bs.foldr (fun b acc => b + 256 * acc) 0

/-- The lane-updating loop of `CompactHash::insert` (lines 104-117):
consume full 16-byte blocks while at least 16 bytes remain (the first
16-cons pattern is exactly `size >= 16`), then compress a zero-padded
final partial block of 1-15 bytes; do nothing more when no bytes remain. -/
def insertLoop : Nat → Nat → List Nat → Nat × Nat
  | s0, s1, b0 :: b1 :: b2 :: b3 :: b4 :: b5 :: b6 :: b7 ::
      b8 :: b9 :: b10 :: b11 :: b12 :: b13 :: b14 :: b15 :: rest =>
    insertLoop (compress s0 (le64 [b0, b1, b2, b3, b4, b5, b6, b7]))
      (compress s1 (le64 [b8, b9, b10, b11, b12, b13, b14, b15])) rest
  | s0, s1, [] => (s0, s1)
  | s0, s1, bs =>
    (compress s0 (le64 (bs.take 8)), compress s1 (le64 ((bs.drop 8).take 8)))

/-- `CompactHash::insert(p, size)` (lines 101-118): add the buffer length to
`total_len` (wrapping), then run the block loop on the lanes. -/
def insert (st : HState) (bs : List Nat) : HState :=
  let p := insertLoop st.s0 st.s1 bs
  ⟨p.1, p.2, (st.len + bs.length) % M⟩

/-- `CompactHash::finalize()` (lines 121-131): merge the lanes with
`compress`, then the rrmxmx-style avalanche with `total_len` XORed in
between the two multiplications. -/
def finalize (st : HState) : Nat :=
  let h0 := compress st.s0 st.s1
  let h1 := h0 ^^^ (rotl h0 49 ^^^ rotl h0 24)
  let h2 := h1 * 0x9fb21c651e98df25 % M
  let h3 := h2 ^^^ ((h2 >>> 35) ^^^ st.len)
  let h4 := h3 * 0x9fb21c651e98df25 % M
  h4 ^^^ (h4 >>> 28)

/-- The one-shot `compact_hash(data, size, seed)` (lines 148-152). -/
def hash (bs : List Nat) (seed : Nat) : Nat :=
  finalize (insert (mkCompactHash seed) bs)

/-- The little-endian 8 raw bytes of the 64-bit value `i`, as produced by
`reinterpret_cast<const uint8_t*>(&i), sizeof(i)` on the supported
little-endian targets (line 173). -/
def toLE8 (i : Nat) : List Nat :=
  [i % 256, i / 2 ^ 8 % 256, i / 2 ^ 16 % 256, i / 2 ^ 24 % 256,
   i / 2 ^ 32 % 256, i / 2 ^ 40 % 256, i / 2 ^ 48 % 256, i / 2 ^ 56 % 256]

/-- The loop of `compact_hash_extended` (lines 168-175): `count` remaining
words, current index `i`, current seed-generator state `g`. -/
def extGo (data : List Nat) : Nat → Nat → Nat → List Nat
  | 0, _, _ => []
  | count + 1, i, g =>
    let r := smNext g
    let h := insert (insert (mkCompactHash r.1) data) (toLE8 i)
    finalize h :: extGo data count (i + 1) r.2

/-- `compact_hash_extended(data, size, nWords, seed)` (lines 156-178). -/
def compact_hash_extended (data : List Nat) (nWords seed : Nat) : List Nat :=
  extGo data nWords 0 seed

/-- The `k`-th (0-indexed) output a `SplitMix64` generator in state `s` will
produce from further `operator()` calls: the mix of the `(k+1)`-fold
advanced state. -/
def smOutputAt (s k : Nat) : Nat := smMix (smNextState^[k + 1] s)

/-- The Avalanche/Finalizer of spec §4.4 as a standalone function of the
merged lane value `h0` and the accumulated length: rotate-xor, multiply,
XOR with the 35-bit right shift and the raw length, multiply, final
28-bit xorshift (lines 126-130 of `compact_hash.h`). -/
def avalanche (h0 len : Nat) : Nat :=
  let h1 := h0 ^^^ (rotl h0 49 ^^^ rotl h0 24)
  let h2 := h1 * 0x9fb21c651e98df25 % M
  let h3 := h2 ^^^ ((h2 >>> 35) ^^^ len)
  let h4 := h3 * 0x9fb21c651e98df25 % M
  h4 ^^^ (h4 >>> 28)

/-- The avalanche mixing with no length contribution, used to state claim
C1's reading of `finalize` (length mixed in before the avalanche). -/
def avalanchePure (h0 : Nat) : Nat :=
  let h1 := h0 ^^^ (rotl h0 49 ^^^ rotl h0 24)
  let h2 := h1 * 0x9fb21c651e98df25 % M
  let h3 := h2 ^^^ (h2 >>> 35)
  let h4 := h3 * 0x9fb21c651e98df25 % M
  h4 ^^^ (h4 >>> 28)

/-- `finalize` as claim C1 words it: merge the lanes, XOR in the
length-scaled constant `total_len * INCREMENT`, then apply the avalanche
mixing. -/
def finalizeSpecC1 (st : HState) : Nat :=
  avalanchePure (compress st.s0 st.s1 ^^^ (st.len * INCREMENT % M))

/-- `compress` as claim C3 words it: the fold of the 128-bit product is
the XOR of its high half, its low half and the intermediate value `t`
(without the second constant). -/
def compressSpecC3 (x y : Nat) : Nat :=
  let t := (x + y) * 0x2d358dccaa6c78a5 % M
  let p := t * (t ^^^ 0x8bb84b93962eacc9)
  (p / M) ^^^ (p % M) ^^^ t

/-- An API call on a `CompactHash` object: an `insert` of a buffer or a
`finalize` call. -/
inductive HOp where
  | ins : List Nat → HOp
  | fin : HOp

/-- Run a sequence of API calls against a `CompactHash` object, returning
the final object state and the values returned by the `finalize` calls in
order.  `finalize` reads the state and mutates nothing (lines 121-131 read
`state` and `total_len` only). -/
def runOps (st : HState) : List HOp → HState × List Nat
  | [] => (st, [])
  | HOp.ins bs :: rest => runOps (insert st bs) rest
  | HOp.fin :: rest =>
    let r := runOps st rest
    (r.1, finalize st :: r.2)

end CompactHash

/-! ## Helper lemmas -/

namespace CompactHash

theorem xor_left_comm (a b c : Nat) : a ^^^ (b ^^^ c) = b ^^^ (a ^^^ c) := by
  rw [← Nat.xor_assoc, Nat.xor_comm a b, Nat.xor_assoc]

theorem smNextState_iterate (s : Nat) (hs : s < M) :
    ∀ n, smNextState^[n] s = (s + INCREMENT * n) % M := by
  intro n
  induction n with
  | zero => simpa using (Nat.mod_eq_of_lt hs).symm
  | succ n ih =>
    rw [Function.iterate_succ_apply', ih, smNextState, Nat.mod_add_mod]
    ring_nf

end CompactHash

/-! ## Claims -/

namespace CompactHash

/-- Claim C3, counterexample: at `x = y = 0` the code's `compress` returns
the second constant `0x8bb84b93962eacc9`, while the claim's fold
(high half XOR low half XOR t) returns 0. -/
theorem claim_C3_counterexample : compress 0 0 ≠ compressSpecC3 0 0 := by decide

/-- Claim C3 (amended): `compress(x, y)` equals the claim's fold of the
128-bit product (high XOR low XOR t) XORed additionally with the second
fixed odd constant `0x8bb84b93962eacc9`. -/
theorem claim_C3_compress (x y : Nat) :
    compress x y = compressSpecC3 x y ^^^ 0x8bb84b93962eacc9 := by
  simp only [compress, compressSpecC3]
  simp [Nat.xor_assoc, Nat.xor_comm, xor_left_comm]

/-- Claim C7: the constructor seeds a deterministic SplitMix64 generator
with `seed`, draws lane 0 and lane 1 as its first and second outputs, and
sets the length counter to 0. -/
theorem claim_C7_constructor (seed : Nat) :
    mkCompactHash seed = ⟨smOutputAt seed 0, smOutputAt seed 1, 0⟩ := by
  have h0 : smOutputAt seed 0 = smMix (smNextState seed) := by
    rw [smOutputAt, Function.iterate_one]
  have h1 : smOutputAt seed 1 = smMix (smNextState (smNextState seed)) := by
    rw [smOutputAt, Function.iterate_succ_apply', Function.iterate_one]
  rw [h0, h1]
  rfl

/-- Claim C8: `finalize` mutates nothing — two consecutive `finalize`
calls leave the object state unchanged and return the same value, and
an `insert` after a `finalize` followed by another `finalize` returns
exactly the fingerprint of the updated state. -/
theorem claim_C8_finalize_pure :
    (∀ st : HState, runOps st [HOp.fin, HOp.fin] = (st, [finalize st, finalize st])) ∧
    (∀ (st : HState) (bs : List Nat),
      runOps st [HOp.fin, HOp.ins bs, HOp.fin] =
        (insert st bs, [finalize st, finalize (insert st bs)])) := by
  exact ⟨fun st => rfl, fun st bs => rfl⟩

/-- Claim C9: with the entropy source modelled as two 32-bit draws
`r1`, `r2`, the expression `(u64(r1) >> 32) | u64(r2)` of the
non-deterministic constructor always has zero high 32 bits: the shifted
first draw vanishes, the state equals the second draw, and it is below
`2^32`. -/
theorem claim_C9_entropy_loss (r1 r2 : Nat) (h1 : r1 < 2 ^ 32) (h2 : r2 < 2 ^ 32) :
    r1 >>> 32 = 0 ∧ ndSeed r1 r2 = r2 ∧ ndSeed r1 r2 < 2 ^ 32 := by
  have hz : r1 >>> 32 = 0 := by
    rw [Nat.shiftRight_eq_div_pow]
    exact Nat.div_eq_of_lt h1
  have hnd : ndSeed r1 r2 = r2 := by simp [ndSeed, hz]
  exact ⟨hz, hnd, by rw [hnd]; exact h2⟩

/-- Claim C9 witness at `r1 = 3`, `r2 = 7`. -/
theorem claim_C9_witness :
    3 >>> 32 = 0 ∧ ndSeed 3 7 = 7 ∧ ndSeed 3 7 < 2 ^ 32 :=
  claim_C9_entropy_loss 3 7 (by decide) (by decide)

/-- Claim C4: for a 64-bit state `s`, `discard(n)` reaches exactly the
state of `n` ignored `next()` calls (so all subsequent outputs agree),
and is itself the single wrapping addition of `n * INCREMENT`. -/
theorem claim_C4_discard (s n : Nat) (hs : s < M) :
    smDiscard s n = smNextState^[n] s ∧
    smDiscard s n = (s + INCREMENT * n) % M ∧
    ∀ k, smOutputAt (smDiscard s n) k = smOutputAt (smNextState^[n] s) k := by
  have h := smNextState_iterate s hs n
  exact ⟨by rw [h, smDiscard], rfl, fun k => by rw [h, smDiscard]⟩

/-- Claim C4 witness at `s = 5`, `n = 3`. -/
theorem claim_C4_witness :
    smDiscard 5 3 = smNextState^[3] 5 ∧
    smDiscard 5 3 = (5 + INCREMENT * 3) % M ∧
    ∀ k, smOutputAt (smDiscard 5 3) k = smOutputAt (smNextState^[3] 5) k :=
  claim_C4_discard 5 3 (by decide)

end CompactHash

/-! ## Helper lemmas about ingestion -/

namespace CompactHash

theorem finalize_eq_avalanche (st : HState) :
    finalize st = avalanche (compress st.s0 st.s1) st.len := rfl

theorem insertLoop_nil (s0 s1 : Nat) : insertLoop s0 s1 [] = (s0, s1) := rfl

theorem insertLoop_step (s0 s1 : Nat) (bs : List Nat) (h : 16 ≤ bs.length) :
    insertLoop s0 s1 bs =
      insertLoop (compress s0 (le64 (bs.take 8)))
        (compress s1 (le64 ((bs.drop 8).take 8))) (bs.drop 16) := by
  rcases bs with _ | ⟨b0, bs⟩; · simp at h
  rcases bs with _ | ⟨b1, bs⟩; · simp at h
  rcases bs with _ | ⟨b2, bs⟩; · simp at h
  rcases bs with _ | ⟨b3, bs⟩; · simp at h
  rcases bs with _ | ⟨b4, bs⟩; · simp at h
  rcases bs with _ | ⟨b5, bs⟩; · simp at h
  rcases bs with _ | ⟨b6, bs⟩; · simp at h
  rcases bs with _ | ⟨b7, bs⟩; · simp at h
  rcases bs with _ | ⟨b8, bs⟩; · simp at h
  rcases bs with _ | ⟨b9, bs⟩; · simp at h
  rcases bs with _ | ⟨b10, bs⟩; · simp at h
  rcases bs with _ | ⟨b11, bs⟩; · simp at h
  rcases bs with _ | ⟨b12, bs⟩; · simp at h
  rcases bs with _ | ⟨b13, bs⟩; · simp at h
  rcases bs with _ | ⟨b14, bs⟩; · simp at h
  rcases bs with _ | ⟨b15, bs⟩; · simp at h
  rfl

theorem insertLoop_tail (s0 s1 : Nat) (bs : List Nat)
    (hpos : 0 < bs.length) (hle : bs.length ≤ 15) :
    insertLoop s0 s1 bs =
      (compress s0 (le64 (bs.take 8)), compress s1 (le64 ((bs.drop 8).take 8))) := by
  rcases bs with _ | ⟨b0, bs⟩; · simp at hpos
  rcases bs with _ | ⟨b1, bs⟩; · rfl
  rcases bs with _ | ⟨b2, bs⟩; · rfl
  rcases bs with _ | ⟨b3, bs⟩; · rfl
  rcases bs with _ | ⟨b4, bs⟩; · rfl
  rcases bs with _ | ⟨b5, bs⟩; · rfl
  rcases bs with _ | ⟨b6, bs⟩; · rfl
  rcases bs with _ | ⟨b7, bs⟩; · rfl
  rcases bs with _ | ⟨b8, bs⟩; · rfl
  rcases bs with _ | ⟨b9, bs⟩; · rfl
  rcases bs with _ | ⟨b10, bs⟩; · rfl
  rcases bs with _ | ⟨b11, bs⟩; · rfl
  rcases bs with _ | ⟨b12, bs⟩; · rfl
  rcases bs with _ | ⟨b13, bs⟩; · rfl
  rcases bs with _ | ⟨b14, bs⟩; · rfl
  rcases bs with _ | ⟨b15, bs⟩; · rfl
  simp at hle

theorem le64_replicate_zero (k : Nat) : le64 (List.replicate k 0) = 0 := by
  induction k with
  | zero => rfl
  | succ k ih => simp [le64, List.replicate_succ] at ih ⊢; omega

theorem le64_append_replicate_zero (bs : List Nat) (k : Nat) :
    le64 (bs ++ List.replicate k 0) = le64 bs := by
  induction bs with
  | nil => simpa [le64] using le64_replicate_zero k
  | cons b bs ih => simp [le64] at ih ⊢; omega

theorem le64_take_append_replicate (bs : List Nat) (k n : Nat) :
    le64 ((bs ++ List.replicate k 0).take n) = le64 (bs.take n) := by
  rw [List.take_append_eq_append_take, List.take_replicate]
  exact le64_append_replicate_zero _ _

theorem le64_drop_take_append_replicate (bs : List Nat) (k : Nat) :
    le64 (((bs ++ List.replicate k 0).drop 8).take 8) = le64 ((bs.drop 8).take 8) := by
  rw [List.drop_append_eq_append_drop, List.drop_replicate]
  exact le64_take_append_replicate _ _ _

end CompactHash

namespace CompactHash

/-- Claim C1, counterexample: at the state with both lanes 0 and total
length 1, `finalize` differs from the claim's composition — the XOR of
`total_len * 0x9e3779b97f4a7c15` into the merged lanes before the
avalanche mixing. -/
theorem claim_C1_counterexample :
    finalize ⟨0, 0, 1⟩ ≠ finalizeSpecC1 ⟨0, 0, 1⟩ := by decide

/-- Claim C1 (amended): `finalize` merges the two lanes with the
Compression Function and applies the Avalanche/Finalizer mixing, inside
which the raw total byte length — not scaled by any constant — is XORed
in together with the 35-bit right shift, between the mixing's two
multiplications. -/
theorem claim_C1_finalize (st : HState) :
    finalize st = avalanche (compress st.s0 st.s1) st.len :=
  finalize_eq_avalanche st

end CompactHash

namespace CompactHash

theorem insertLoop_append_blocks (s0 s1 : Nat) (a b : List Nat) (n : Nat)
    (hn : a.length = 16 * n) :
    insertLoop s0 s1 (a ++ b) =
      insertLoop (insertLoop s0 s1 a).1 (insertLoop s0 s1 a).2 b := by
  induction n generalizing s0 s1 a with
  | zero =>
    have ha : a = [] := List.eq_nil_of_length_eq_zero (by omega)
    subst ha
    simp [insertLoop_nil]
  | succ n ih =>
    have h16 : 16 ≤ a.length := by omega
    have h1 : (a ++ b).take 8 = a.take 8 := List.take_append_of_le_length (by omega)
    have h2 : ((a ++ b).drop 8).take 8 = (a.drop 8).take 8 := by
      rw [List.drop_append_of_le_length (by omega)]
      exact List.take_append_of_le_length (by simp [List.length_drop]; omega)
    have h3 : (a ++ b).drop 16 = a.drop 16 ++ b :=
      List.drop_append_of_le_length (by omega)
    rw [insertLoop_step s0 s1 (a ++ b) (by simp [List.length_append]; omega),
        insertLoop_step s0 s1 a h16, h1, h2, h3]
    exact ih _ _ (a.drop 16) (by simp [List.length_drop]; omega)

end CompactHash

namespace CompactHash

/-- Claim C2: `insert` adds the buffer length to the length counter
(modulo 2^64, hence by exactly the length whenever no wraparound occurs);
an empty buffer changes neither lane and triggers no compression; each
full 16-byte block is split into two 8-byte words, the first combined
into lane 0 and the second into lane 1 by the Compression Function; and a
final partial block of 1-15 leftover bytes is compressed as is — which
coincides with zero-padding it to 16 bytes and combining it exactly like
a full block. -/
theorem claim_C2_insert :
    (∀ (st : HState) (bs : List Nat), (insert st bs).len = (st.len + bs.length) % M) ∧
    (∀ (st : HState) (bs : List Nat), st.len + bs.length < M →
      (insert st bs).len = st.len + bs.length) ∧
    (∀ st : HState, (insert st []).s0 = st.s0 ∧ (insert st []).s1 = st.s1) ∧
    (∀ s0 s1 : Nat, insertLoop s0 s1 [] = (s0, s1)) ∧
    (∀ (s0 s1 : Nat) (block rest : List Nat), block.length = 16 →
      insertLoop s0 s1 (block ++ rest) =
        insertLoop (compress s0 (le64 (block.take 8)))
          (compress s1 (le64 ((block.drop 8).take 8))) rest) ∧
    (∀ (s0 s1 : Nat) (bs : List Nat), 0 < bs.length → bs.length ≤ 15 →
      insertLoop s0 s1 bs =
        (compress s0 (le64 (bs.take 8)), compress s1 (le64 ((bs.drop 8).take 8))) ∧
      insertLoop s0 s1 bs = insertLoop s0 s1 (bs ++ List.replicate (16 - bs.length) 0)) := by
  refine ⟨fun st bs => rfl, ?_, fun st => ⟨rfl, rfl⟩, insertLoop_nil, ?_, ?_⟩
  · intro st bs h
    show (st.len + bs.length) % M = st.len + bs.length
    exact Nat.mod_eq_of_lt h
  · intro s0 s1 block rest h
    have h1 : (block ++ rest).take 8 = block.take 8 :=
      List.take_append_of_le_length (by omega)
    have h2 : ((block ++ rest).drop 8).take 8 = (block.drop 8).take 8 := by
      rw [List.drop_append_of_le_length (by omega)]
      exact List.take_append_of_le_length (by simp [List.length_drop]; omega)
    have h3 : (block ++ rest).drop 16 = rest := by
      rw [List.drop_append_eq_append_drop, List.drop_eq_nil_of_le (by omega)]
      simp [h]
    rw [insertLoop_step s0 s1 (block ++ rest) (by simp [List.length_append]; omega),
        h1, h2, h3]
  · intro s0 s1 bs hpos hle
    have ht := insertLoop_tail s0 s1 bs hpos hle
    refine ⟨ht, ?_⟩
    have hlen : (bs ++ List.replicate (16 - bs.length) 0).length = 16 := by
      simp [List.length_append, List.length_replicate]; omega
    have hstep := insertLoop_step s0 s1
      (bs ++ List.replicate (16 - bs.length) 0) (by rw [hlen])
    have hdrop : (bs ++ List.replicate (16 - bs.length) 0).drop 16 = [] :=
      List.drop_eq_nil_of_le (by rw [hlen])
    rw [ht, hstep, hdrop, insertLoop_nil,
        le64_take_append_replicate, le64_drop_take_append_replicate]

/-- Claim C2 witness: the tail conjunct at a concrete 1-byte buffer. -/
theorem claim_C2_witness :
    insertLoop 4 5 [3] =
      (compress 4 (le64 ([3].take 8)), compress 5 (le64 (([3].drop 8).take 8))) ∧
    insertLoop 4 5 [3] = insertLoop 4 5 ([3] ++ List.replicate (16 - [3].length) 0) :=
  claim_C2_insert.2.2.2.2.2 4 5 [3] (by decide) (by decide)

/-- Claim C10: splitting an `insert` at a 16-byte boundary is equivalent
to one combined `insert` — for every state, every buffer `a` whose length
is a multiple of 16 and every buffer `b`, inserting `a` then `b` equals
inserting `a ++ b` — and the equivalence fails for a split not at a
16-byte boundary: splitting `[1, 1]` after one byte gives a different
state, because each call pads and compresses its own partial tail. -/
theorem claim_C10_split_equivalence :
    (∀ (st : HState) (a b : List Nat), a.length % 16 = 0 →
      insert (insert st a) b = insert st (a ++ b)) ∧
    (¬ (List.length [1] % 16 = 0) ∧
      insert (insert (⟨0, 0, 0⟩ : HState) [1]) [1] ≠
        insert (⟨0, 0, 0⟩ : HState) ([1] ++ [1])) := by
  constructor
  · intro st a b h
    obtain ⟨n, hn⟩ := Nat.dvd_of_mod_eq_zero h
    have hl := insertLoop_append_blocks st.s0 st.s1 a b n hn
    simp only [CompactHash.insert, hl, List.length_append, HState.mk.injEq]
    refine ⟨trivial, trivial, ?_⟩
    rw [Nat.mod_add_mod, Nat.add_assoc]
  · exact ⟨by decide, by decide⟩

/-- Claim C10 witness: a concrete split at a 16-byte boundary. -/
theorem claim_C10_witness :
    insert (insert (⟨7, 8, 9⟩ : HState)
        [0, 1, 2, 3, 4, 5, 6, 7, 8, 9, 10, 11, 12, 13, 14, 15]) [1] =
      insert (⟨7, 8, 9⟩ : HState)
        ([0, 1, 2, 3, 4, 5, 6, 7, 8, 9, 10, 11, 12, 13, 14, 15] ++ [1]) :=
  claim_C10_split_equivalence.1 _ _ _ (by decide)

end CompactHash

/-! ## Helper lemmas for the extended API and length sensitivity -/

namespace CompactHash

theorem extGo_length (data : List Nat) :
    ∀ c i g : Nat, (extGo data c i g).length = c := by
  intro c
  induction c with
  | zero => intro i g; rfl
  | succ c ih => intro i g; simp [extGo, ih]

theorem extGo_succ (data : List Nat) (c i g : Nat) :
    extGo data (c + 1) i g =
      finalize (insert (insert (mkCompactHash (smMix (smNextState g))) data)
          (toLE8 i)) ::
        extGo data c (i + 1) (smNextState g) := rfl

theorem extGo_getElem (data : List Nat) :
    ∀ c j i g : Nat, j < c →
      (extGo data c i g)[j]? =
        some (finalize (insert (insert (mkCompactHash
          (smMix (smNextState^[j + 1] g))) data) (toLE8 (i + j)))) := by
  intro c
  induction c with
  | zero => intro j i g hj; omega
  | succ c ih =>
    intro j i g hj
    rw [extGo_succ]
    cases j with
    | zero =>
      have a0 : (0 : Nat) + 1 = 1 := rfl
      rw [List.getElem?_cons_zero, a0, Function.iterate_one, Nat.add_zero]
    | succ j =>
      have e0 : i + 1 + j = i + (j + 1) := by omega
      have e1 : smNextState^[j + 1] (smNextState g) = smNextState^[j + 1 + 1] g :=
        (Function.iterate_succ_apply smNextState (j + 1) g).symm
      rw [List.getElem?_cons_succ, ih j (i + 1) (smNextState g) (by omega), e0, e1]

theorem shiftRight_xor (a b n : Nat) :
    (a ^^^ b) >>> n = (a >>> n) ^^^ (b >>> n) := by
  apply Nat.eq_of_testBit_eq
  intro i
  simp [Nat.testBit_shiftRight, Nat.testBit_xor]

theorem xorshift28_leftInv (z : Nat) (hz : z < M) :
    (z ^^^ (z >>> 28)) ^^^
      (((z ^^^ (z >>> 28)) >>> 28) ^^^ ((z ^^^ (z >>> 28)) >>> 56)) = z := by
  have e1 : (z >>> 28) >>> 28 = z >>> 56 := by rw [← Nat.shiftRight_add]
  have e2 : (z >>> 28) >>> 56 = 0 := by
    rw [← Nat.shiftRight_add, Nat.shiftRight_eq_div_pow]
    refine Nat.div_eq_of_lt (lt_of_lt_of_le hz ?_)
    norm_num
  rw [shiftRight_xor, shiftRight_xor, e1, e2]
  simp [Nat.xor_assoc, Nat.xor_self, Nat.xor_zero]

theorem xorshift28_inj (x y : Nat) (hx : x < M) (hy : y < M)
    (h : x ^^^ (x >>> 28) = y ^^^ (y >>> 28)) : x = y := by
  have ix := xorshift28_leftInv x hx
  have iy := xorshift28_leftInv y hy
  rw [h] at ix
  exact ix.symm.trans iy

theorem mulP_cancel (a b : Nat) (ha : a < M) (hb : b < M)
    (h : a * 0x9fb21c651e98df25 % M = b * 0x9fb21c651e98df25 % M) : a = b := by
  have hodd : Odd (0x9fb21c651e98df25 : Nat) := by
    rw [Nat.odd_iff]
  have hco : Nat.Coprime (2 ^ 64) 0x9fb21c651e98df25 :=
    Nat.Coprime.pow_left 64 (Nat.coprime_two_left.mpr hodd)
  have hco' : Nat.gcd M 0x9fb21c651e98df25 = 1 := hco
  have hm : a ≡ b [MOD M] := Nat.ModEq.cancel_right_of_coprime hco' h
  have h2 : a % M = b % M := hm
  rwa [Nat.mod_eq_of_lt ha, Nat.mod_eq_of_lt hb] at h2

theorem avalanche_len_inj (h0 l1 l2 : Nat) (hl1 : l1 < M) (hl2 : l2 < M)
    (h : avalanche h0 l1 = avalanche h0 l2) : l1 = l2 := by
  have hM : 0 < M := by norm_num
  simp only [avalanche] at h
  set g := (h0 ^^^ (rotl h0 49 ^^^ rotl h0 24)) * 0x9fb21c651e98df25 % M with hg
  have hgM : g < M := by rw [hg]; exact Nat.mod_lt _ hM
  have h35 : g >>> 35 < M :=
    lt_of_le_of_lt (by rw [Nat.shiftRight_eq_div_pow]; exact Nat.div_le_self _ _) hgM
  have hx1 : g ^^^ ((g >>> 35) ^^^ l1) < M :=
    Nat.xor_lt_two_pow hgM (Nat.xor_lt_two_pow h35 hl1)
  have hx2 : g ^^^ ((g >>> 35) ^^^ l2) < M :=
    Nat.xor_lt_two_pow hgM (Nat.xor_lt_two_pow h35 hl2)
  have e1 := xorshift28_inj _ _ (Nat.mod_lt _ hM) (Nat.mod_lt _ hM) h
  have e2 := mulP_cancel _ _ hx1 hx2 e1
  exact Nat.xor_right_inj.mp (Nat.xor_right_inj.mp e2)

end CompactHash

namespace CompactHash

/-- Claim C5: `hashWords` returns exactly `nWords` words (the empty
sequence for `nWords = 0`), and word `i` is the finalization of a fresh
state seeded with the `(i+1)`-th output of one deterministic SplitMix64
generator seeded with the caller's seed, into which the data and then the
raw little-endian 8 bytes of `i` were inserted. -/
theorem claim_C5_extended (data : List Nat) (nWords seed : Nat) :
    (compact_hash_extended data nWords seed).length = nWords ∧
    compact_hash_extended data 0 seed = [] ∧
    (∀ i, i < nWords →
      (compact_hash_extended data nWords seed)[i]? =
        some (finalize (insert (insert (mkCompactHash (smOutputAt seed i)) data)
          (toLE8 i)))) := by
  refine ⟨extGo_length data nWords 0 seed, rfl, ?_⟩
  intro i hi
  have h := extGo_getElem data nWords i 0 seed hi
  rw [Nat.zero_add] at h
  exact h

/-- Claim C5 witness at `data = [2]`, `nWords = 1`, `seed = 0`, `i = 0`. -/
theorem claim_C5_witness :
    (compact_hash_extended [2] 1 0)[0]? =
      some (finalize (insert (insert (mkCompactHash (smOutputAt 0 0)) [2])
        (toLE8 0))) :=
  (claim_C5_extended [2] 1 0).2.2 0 (by decide)

/-- Claim C6: for every seed, the one-shot hash of the 1-byte buffer
`"A"` differs from that of the 2-byte buffer `"A\x00"`: the two inserts
produce identical lanes (the padded content block is the same), and the
differing declared lengths mixed in at finalize force distinct
fingerprints. -/
theorem claim_C6_length_sensitivity (s : Nat) : hash [65] s ≠ hash [65, 0] s := by
  obtain ⟨A, B, hAB⟩ : ∃ A B, mkCompactHash s = ⟨A, B, 0⟩ := ⟨_, _, rfl⟩
  unfold hash
  rw [hAB]
  have e1 : CompactHash.insert ⟨A, B, 0⟩ [65] = ⟨compress A 65, compress B 0, 1⟩ := by
    simp [CompactHash.insert, insertLoop, le64]
  have e2 : CompactHash.insert ⟨A, B, 0⟩ [65, 0] = ⟨compress A 65, compress B 0, 2⟩ := by
    simp [CompactHash.insert, insertLoop, le64]
    exact Nat.mod_eq_of_lt (by norm_num)
  rw [e1, e2, finalize_eq_avalanche, finalize_eq_avalanche]
  intro h
  have h12 := avalanche_len_inj _ _ _ (by norm_num) (by norm_num) h
  norm_num at h12

end CompactHash
